import Mathlib

/-!
Verification of the board-representation core of the Hexe chess engine.

The Rust sources are shallowly embedded: 64-bit words become natural
numbers (with explicit two-power masks where wraparound matters), enums
become inductive types, and each Rust function is translated to an
executable Lean definition of the same name wherever possible.
-/

namespace Hexe

/-- A board square, one of 64 identities; the Rust enum Square is
represented by its discriminant, a value below 64 (rank*8 + file). -/
abbrev Square := Fin 64

/-- A black or white color, as in color.rs. White has discriminant 0,
Black has 1. -/
inductive Color where
  | white
  | black
deriving DecidableEq

/-- A chess piece kind, as in piece.rs. Discriminants run
pawn = 0 .. king = 5. -/
inductive PieceKind where
  | pawn
  | knight
  | bishop
  | rook
  | queen
  | king
deriving DecidableEq, Fintype

/-- A chess piece. The source packs kind and color into one byte
(kind shifted left once, or-ed with the color bit); the kind and color
projections are total, so the pair representation is faithful. -/
structure Piece where
  kind : PieceKind
  color : Color
deriving DecidableEq

/-- File of a square: the low three bits of the discriminant
(Square::file in square/mod.rs). -/
def fileNat (s : Square) : Nat := s.val &&& 7

/-- Rank of a square: the discriminant shifted right three times
(Square::rank in square/mod.rs). -/
def rankNat (s : Square) : Nat := s.val >>> 3

/-- Square::up from square/mod.rs: the square one rank up, or none when
at rank Eight. -/
def Square.up (s : Square) : Option Square :=
  if h : rankNat s = 7 then none
  else some ⟨s.val + 8, by
    have hs := s.isLt
    simp only [rankNat, Nat.shiftRight_eq_div_pow] at h
    omega⟩

/-- Square::down from square/mod.rs: the square one rank down, or none
when at rank One. -/
def Square.down (s : Square) : Option Square :=
  if rankNat s = 0 then none
  else some ⟨s.val - 8, by have hs := s.isLt; omega⟩

/-- Square::right from square/mod.rs: the square one file to the right,
or none when at file H. -/
def Square.right (s : Square) : Option Square :=
  if h : fileNat s = 7 then none
  else some ⟨s.val + 1, by
    have hs := s.isLt
    have hm := Nat.and_pow_two_sub_one_eq_mod s.val 3
    norm_num at hm
    simp only [fileNat, hm] at h
    omega⟩

/-- Square::left from square/mod.rs: the square one file to the left, or
none when at file A. -/
def Square.left (s : Square) : Option Square :=
  if fileNat s = 0 then none
  else some ⟨s.val - 1, by have hs := s.isLt; omega⟩

/-- Square::tri_index from square/mod.rs, translated literally over
mathematical integers: the shift right by 31 is the arithmetic shift of
the source (identical on the in-range differences produced here), and
the bitwise and is two-complement, matching isize. -/
def tri_index (a b : Square) : Int :=
  let a0 : Int := a.val
  let b0 : Int := b.val
  let d0 : Int := a0 - b0
  let d1 : Int := Int.land d0 (d0 >>> 31)
  let b1 : Int := b0 + d1
  let a1 : Int := a0 - d1
  let b2 : Int := b1 * (Int.xor b1 127)
  (b2 >>> 1) + a1

/-- File::from_char from square/mod.rs. The argument is the ASCII code
of the character (the source truncates a char to u8; for ASCII input the
two agree). The source ors in 32 and accepts only codes from lowercase a
through lowercase f. -/
def File.from_char (c : Nat) : Option Nat :=
  let b := 32 ||| c % 256
  if 97 ≤ b ∧ b ≤ 102 then some (b - 97) else none

/-- ASCII lowercasing: adds 32 exactly on uppercase letters. Used only to
state the claim about File::from_char. -/
def asciiLower (c : Nat) : Nat :=
  if 65 ≤ c ∧ c ≤ 90 then c + 32 else c

/-- Bitboard construction from a square (impl From of Square for
Bitboard in bitboard/impls.rs): the word 1 shifted left by the square
discriminant. -/
def bbFromSquare (s : Square) : Nat := 1 <<< s.val

/-- Modelled from the spec: the impl_bit_set macro that generates
Bitboard::len is not under src; section 4.1 of the spec says len returns
the population count of the 64-bit word. Structural recursion with 64
fuel steps covers the whole u64 domain. -/
def popCountAux : Nat → Nat → Nat
  | 0, _ => 0
  | fuel + 1, n => n % 2 + popCountAux fuel (n / 2)

/-- Population count of a 64-bit word; see popCountAux. -/
def popCount (n : Nat) : Nat := popCountAux 64 n

/-- Modelled from the spec: the impl_bit_set macro that generates
Bitboard::lsb_unchecked is not under src; section 4.1 of the spec says
membership extraction returns the lowest-set-bit square and that calling
it on an empty set is a caller contract violation. The empty case is
modelled by the default square 0. -/
def lsbU (n : Nat) : Square :=
  (((List.finRange 64).find? fun i => n.testBit i.val).getD 0)

/-- A full chess board as multiple bitboard segments, from
board/multi_board/mod.rs: six piece-kind words and two color words, each
a u64 value. -/
structure MultiBoard where
  pawns : Nat
  knights : Nat
  bishops : Nat
  rooks : Nat
  queens : Nat
  kings : Nat
  white : Nat
  black : Nat
deriving DecidableEq

/-- Indexing a MultiBoard by piece kind (ops Index of PieceKind). -/
def pieceBB (b : MultiBoard) : PieceKind → Nat
  | .pawn => b.pawns
  | .knight => b.knights
  | .bishop => b.bishops
  | .rook => b.rooks
  | .queen => b.queens
  | .king => b.kings

/-- Indexing a MultiBoard by color (ops Index of Color). -/
def colorBB (b : MultiBoard) : Color → Nat
  | .white => b.white
  | .black => b.black

/-- Functional update of one piece-kind board (ops IndexMut of
PieceKind). -/
def setPieceBB (b : MultiBoard) (k : PieceKind) (v : Nat) : MultiBoard :=
  match k with
  | .pawn => { b with pawns := v }
  | .knight => { b with knights := v }
  | .bishop => { b with bishops := v }
  | .rook => { b with rooks := v }
  | .queen => { b with queens := v }
  | .king => { b with kings := v }

/-- Functional update of one color board (ops IndexMut of Color). -/
def setColorBB (b : MultiBoard) (c : Color) (v : Nat) : MultiBoard :=
  match c with
  | .white => { b with white := v }
  | .black => { b with black := v }

/-- The standard starting board, values module of
board/multi_board/mod.rs. -/
def STANDARD : MultiBoard :=
  { pawns := 0x00FF00000000FF00
    knights := 0x4200000000000042
    bishops := 0x2400000000000024
    rooks := 0x8100000000000081
    queens := 0x0800000000000008
    kings := 0x1000000000000010
    white := 0x000000000000FFFF
    black := 0xFFFF000000000000 }

/-- MultiBoard::all_bits: union of the two color boards. -/
def all_bits (b : MultiBoard) : Nat := b.white ||| b.black

/-- Complement of a u64 word: the Rust not operator on u64, which flips
exactly the 64 bits of the word. -/
def compl64 (bits : Nat) : Nat := (2 ^ 64 - 1) ^^^ bits

/-- MultiBoard::remove_all: clears bits from every one of the eight
boards by and-ing with the complement. -/
def remove_all (b : MultiBoard) (bits : Nat) : MultiBoard :=
  let m := compl64 bits
  { pawns := b.pawns &&& m
    knights := b.knights &&& m
    bishops := b.bishops &&& m
    rooks := b.rooks &&& m
    queens := b.queens &&& m
    kings := b.kings &&& m
    white := b.white &&& m
    black := b.black &&& m }

/-- MultiBoard::insert_unchecked: blindly or the bits into the color
board and kind board of the piece. -/
def insert_unchecked (b : MultiBoard) (bits : Nat) (p : Piece) : MultiBoard :=
  let b1 := setColorBB b p.color (colorBB b p.color ||| bits)
  setPieceBB b1 p.kind (pieceBB b1 p.kind ||| bits)

/-- MultiBoard::insert: remove any occupant at bits, then do the blind
insertion. -/
def insert (b : MultiBoard) (bits : Nat) (p : Piece) : MultiBoard :=
  insert_unchecked (remove_all b bits) bits p

/-- Selector for the Index trait of MultiBoard (impls for Color, Piece
and PieceKind in board/multi_board/mod.rs). -/
inductive BoardIndex where
  | color (c : Color)
  | piece (p : Piece)
  | kind (k : PieceKind)

/-- MultiBoard::bitboard through the Index trait: a color or kind board
directly, and for a piece the intersection of its color and kind
boards. -/
def bitboard (b : MultiBoard) : BoardIndex → Nat
  | .color c => colorBB b c
  | .piece p => colorBB b p.color &&& pieceBB b p.kind
  | .kind k => pieceBB b k

/-- MultiBoard::count: population count of the selected bitboard. -/
def count (b : MultiBoard) (v : BoardIndex) : Nat := popCount (bitboard b v)

/-- Index::remove_unchecked for Color: clear the bits from that color
board and from every kind board. -/
def removeColorUnchecked (b : MultiBoard) (bits : Nat) (c : Color) : MultiBoard :=
  let m := compl64 bits
  let b1 := setColorBB b c (colorBB b c &&& m)
  { b1 with
    pawns := b1.pawns &&& m
    knights := b1.knights &&& m
    bishops := b1.bishops &&& m
    rooks := b1.rooks &&& m
    queens := b1.queens &&& m
    kings := b1.kings &&& m }

/-- Index::remove for Color: restrict the bits to that color board, then
remove them blindly. -/
def removeColor (b : MultiBoard) (bits : Nat) (c : Color) : MultiBoard :=
  removeColorUnchecked b (colorBB b c &&& bits) c

/-- Index::remove_unchecked for PieceKind: clear the bits from that kind
board and from every color board. -/
def removeKindUnchecked (b : MultiBoard) (bits : Nat) (k : PieceKind) : MultiBoard :=
  let m := compl64 bits
  let b1 := setPieceBB b k (pieceBB b k &&& m)
  { b1 with
    white := b1.white &&& m
    black := b1.black &&& m }

/-- Index::remove for PieceKind: restrict the bits to that kind board,
then remove them blindly. -/
def removeKind (b : MultiBoard) (bits : Nat) (k : PieceKind) : MultiBoard :=
  removeKindUnchecked b (pieceBB b k &&& bits) k

/-- Index::remove_unchecked for Piece: clear the bits from the color
board and the kind board of the piece. -/
def removePieceUnchecked (b : MultiBoard) (bits : Nat) (p : Piece) : MultiBoard :=
  let m := compl64 bits
  let b1 := setColorBB b p.color (colorBB b p.color &&& m)
  setPieceBB b1 p.kind (pieceBB b1 p.kind &&& m)

/-- Index::remove for Piece, translated literally from
board/multi_board/mod.rs: the bits are restricted to the UNION of the
color board and the kind board of the piece, then removed blindly. -/
def removePiece (b : MultiBoard) (bits : Nat) (p : Piece) : MultiBoard :=
  removePieceUnchecked b ((colorBB b p.color ||| pieceBB b p.kind) &&& bits) p

/-- MultiBoard::remove, dispatching on the Index selector. -/
def remove (b : MultiBoard) (bits : Nat) : BoardIndex → MultiBoard
  | .color c => removeColor b bits c
  | .piece p => removePiece b bits p
  | .kind k => removeKind b bits k

/-- The MultiBoard consistency invariant from section 3 of the spec:
every square lies in at most one kind board and at most one color board,
and the union of the kind boards equals the union of the color
boards. -/
def invariant (b : MultiBoard) : Prop :=
  (∀ k₁ k₂ : PieceKind, k₁ ≠ k₂ → pieceBB b k₁ &&& pieceBB b k₂ = 0) ∧
  b.white &&& b.black = 0 ∧
  (b.pawns ||| b.knights ||| b.bishops ||| b.rooks ||| b.queens ||| b.kings)
    = b.white ||| b.black

instance (b : MultiBoard) : Decidable (invariant b) := by
  unfold invariant; infer_instance

/-- An individual castle right, from castle.rs; discriminants are
WhiteKingside = 0, WhiteQueenside = 1, BlackKingside = 2,
BlackQueenside = 3. -/
inductive CastleRight where
  | whiteKingside
  | whiteQueenside
  | blackKingside
  | blackQueenside
deriving DecidableEq

/-- Discriminant of a castle right. -/
def CastleRight.index : CastleRight → Nat
  | .whiteKingside => 0
  | .whiteQueenside => 1
  | .blackKingside => 2
  | .blackQueenside => 3

/-- CastleRight::color: the discriminant shifted right once. -/
def CastleRight.color (r : CastleRight) : Color :=
  match r with
  | .whiteKingside => .white
  | .whiteQueenside => .white
  | .blackKingside => .black
  | .blackQueenside => .black

/-- The castling path bitboards from the path module of castle.rs,
indexed as in path::ALL. -/
def CastleRight.path : CastleRight → Nat
  | .whiteKingside => 0x60
  | .whiteQueenside => 0x0E
  | .blackKingside => 0x60 <<< 56
  | .blackQueenside => 0x0E <<< 56

/-- The king and rook masks of MultiBoard::castle, one pair per castle
right, written as in the MASKS table (squares E1 G1 H1 F1 C1 A1 D1 and
their eighth-rank mirrors). -/
def castleMasks : CastleRight → Nat × Nat
  | .whiteKingside => ((1 <<< 4) ||| (1 <<< 6), (1 <<< 7) ||| (1 <<< 5))
  | .whiteQueenside => ((1 <<< 4) ||| (1 <<< 2), (1 <<< 0) ||| (1 <<< 3))
  | .blackKingside => ((1 <<< 60) ||| (1 <<< 62), (1 <<< 63) ||| (1 <<< 61))
  | .blackQueenside => ((1 <<< 60) ||| (1 <<< 58), (1 <<< 56) ||| (1 <<< 59))

/-- MultiBoard::castle: blind xor of the king and rook masks for the
right against the relevant color board and the king and rook kind
boards. -/
def castle (b : MultiBoard) (r : CastleRight) : MultiBoard :=
  let king := (castleMasks r).1
  let rook := (castleMasks r).2
  let b1 := setColorBB b r.color (colorBB b r.color ^^^ (king ||| rook))
  let b2 := setPieceBB b1 .king (pieceBB b1 .king ^^^ king)
  setPieceBB b2 .rook (pieceBB b2 .rook ^^^ rook)

/-- One step of CastleRights::from_str: the rights value for one letter,
none for any other character. -/
def charRight (c : Char) : Option Nat :=
  if c = 'K' then some 1
  else if c = 'Q' then some 2
  else if c = 'k' then some 4
  else if c = 'q' then some 8
  else none

/-- The byte loop of CastleRights::from_str: starts from the empty
rights value and ors in the rights of each letter, failing on the first
invalid character. -/
def fromStrAux : List Char → Nat → Option Nat
  | [], acc => some acc
  | c :: rest, acc =>
    match charRight c with
    | some r => fromStrAux rest (acc ||| r)
    | none => none

/-- CastleRights::from_str from castle.rs: a single dash parses to the
empty rights value, any other string is folded letter by letter. -/
def castleRightsFromStr (s : List Char) : Option Nat :=
  if s = ['-'] then some 0 else fromStrAux s 0

/-- CastleRights::map_str from castle.rs, with the bit-set iterator over
rights modelled from the spec: the impl_bit_set macro is not under src,
and the spec (with the castle.rs tests) fixes lowest-bit-first
extraction, giving the canonical letter order K Q k q. An empty rights
value prints as a dash. -/
def castleRightsStr (r : Nat) : List Char :=
  if r = 0 then ['-']
  else
    (if r.testBit 0 then ['K'] else []) ++
    (if r.testBit 1 then ['Q'] else []) ++
    (if r.testBit 2 then ['k'] else []) ++
    (if r.testBit 3 then ['q'] else [])

/-- The aggregate Position of position/mod.rs restricted to the fields
that the castling legality check reads: the segmented board, the castle
rights of the game state, and the player to move. -/
structure Position where
  board : MultiBoard
  rights : Nat
  player : Color

/-- Position::king_square: lowest set bit of the bitboard of the king
piece of the color. -/
def kingSquare (b : MultiBoard) (c : Color) : Square :=
  lsbU (colorBB b c &&& pieceBB b .king)

/-- Modelled from the spec: CastleRight::path_iter is not under src; the
spec says the legality check walks the squares of the path bitboard of
the right. -/
def pathSquares (r : CastleRight) : List Square :=
  (List.finRange 64).filter fun sq => (r.path).testBit sq.val

/-- Position::is_legal from position/mod.rs, castle branch, for a castle
move exercising a given right. The attack oracle att stands for
MultiBoard::is_attacked, which is not under src and is modelled from the
spec as an arbitrary predicate: att b sq c holds when square sq is
attacked by the opponent of color c on board b. The three failure
branches mirror the source order: check, then rights, then
path-attacked. -/
def isLegal (att : MultiBoard → Square → Color → Bool)
    (pos : Position) (right : CastleRight) : Bool :=
  let king := kingSquare pos.board pos.player
  let checked := att pos.board king pos.player
  if checked then false
  else if pos.player ≠ right.color ∨ pos.rights.testBit right.index = false then false
  else (pathSquares right).all fun sq => ! att pos.board sq pos.player

/-- C3: for every castling right r and every MultiBoard state b,
including states that do not match the canonical pre-castle
configuration, applying MultiBoard::castle with r twice returns the
board to exactly the state it started in. -/
theorem castle_involution (b : MultiBoard) (r : CastleRight) :
    castle (castle b r) r = b := by
  cases b
  cases r <;>
    simp [castle, castleMasks, CastleRight.color, setColorBB, setPieceBB,
      colorBB, pieceBB, Nat.xor_cancel_right]

/-- C4: for every pair of squares, Square::tri_index is symmetric in its
arguments and its result is always strictly below 2080. -/
theorem tri_index_symm_lt (a b : Square) :
    tri_index a b = tri_index b a ∧ tri_index a b < 2080 := by
  revert a b
  decide

/-- C6: for every square s, the bitboard built from s has population
count exactly one, contains s and no other square, and its raw value is
one shifted left by the square discriminant. -/
theorem bbFromSquare_single (s : Square) :
    popCount (bbFromSquare s) = 1 ∧
    (∀ t : Square, (bbFromSquare s).testBit t.val ↔ t = s) ∧
    bbFromSquare s = 2 ^ s.val := by
  revert s
  decide

/-- MultiBoard::len: population count of all_bits. -/
def len (b : MultiBoard) : Nat := popCount (all_bits b)

/-- C7: in the standard starting position the white king sits on E1
(square 4) and the black king on E8 (square 60), the total population
count of MultiBoard::STANDARD is 32, and the count of black pieces is
16. -/
theorem standard_board_facts :
    kingSquare STANDARD .white = (4 : Fin 64) ∧
    kingSquare STANDARD .black = (60 : Fin 64) ∧
    len STANDARD = 32 ∧
    count STANDARD (.color .black) = 16 := by
  decide

/-- C8: for every square, the direction shifts up, down, left and right
return none exactly on the matching board edge (rank Eight, rank One,
file A, file H), and otherwise return the adjacent square, whose rank
and file differ from the source square by exactly one step with no
wrapping. -/
theorem square_shift_edges (s : Square) :
    (Square.up s = none ↔ rankNat s = 7) ∧
    (Square.up s).all (fun t => rankNat t == rankNat s + 1 && fileNat t == fileNat s) = true ∧
    (Square.down s = none ↔ rankNat s = 0) ∧
    (Square.down s).all (fun t => rankNat t + 1 == rankNat s && fileNat t == fileNat s) = true ∧
    (Square.left s = none ↔ fileNat s = 0) ∧
    (Square.left s).all (fun t => fileNat t + 1 == fileNat s && rankNat t == rankNat s) = true ∧
    (Square.right s = none ↔ fileNat s = 7) ∧
    (Square.right s).all (fun t => fileNat t == fileNat s + 1 && rankNat t == rankNat s) = true := by
  revert s
  decide

/-- C10: for every ASCII character code, File::from_char succeeds
exactly when the ASCII lowercase of the character lies between a and f;
in particular it rejects g, G, h and H even though files G and H
exist. -/
theorem file_from_char_range (c : Fin 128) :
    ((File.from_char c.val).isSome = true ↔
      (97 ≤ asciiLower c.val ∧ asciiLower c.val ≤ 102)) ∧
    File.from_char 103 = none ∧
    File.from_char 71 = none ∧
    File.from_char 104 = none ∧
    File.from_char 72 = none := by
  revert c
  decide

/-- A board holding exactly one black pawn on square A1: the pawn kind
board and the black color board each contain square zero, nothing
else. -/
def blackPawnA1 : MultiBoard :=
  { pawns := 1, knights := 0, bishops := 0, rooks := 0, queens := 0,
    kings := 0, white := 0, black := 1 }

/-- C1: evaluating MultiBoard::remove at the failing input. The board
holding a single black pawn on A1 satisfies the kind and color
invariant, yet removing the white pawn at A1 through the checked remove
clears A1 from the pawn kind board while leaving it in the black color
board, so the unions of the kind and color boards no longer agree and
the invariant is violated. The checked remove for a Piece restricts the
bits to the union of the color and kind boards of the piece instead of
their intersection, which lets it strip one half of a different piece
occupying the square. -/
theorem remove_piece_breaks_invariant :
    invariant blackPawnA1 ∧
    remove blackPawnA1 (bbFromSquare 0) (.piece ⟨.pawn, .white⟩) =
      { pawns := 0, knights := 0, bishops := 0, rooks := 0, queens := 0,
        kings := 0, white := 0, black := 1 } ∧
    ¬ invariant (remove blackPawnA1 (bbFromSquare 0) (.piece ⟨.pawn, .white⟩)) := by
  refine ⟨by decide, by decide, by decide⟩

/-- C2: the castle branch of Position::is_legal holds exactly when the
king of the moving side is not attacked, the right being exercised
belongs to the moving side and is still held, and no square of the path
bitboard of the right is attacked by the opponent; the source evaluates
the three failure branches in that order, mirrored by the nested
conditionals of the definition. Quantified over every attack oracle,
every position and every castle right. -/
theorem isLegal_castle_iff (att : MultiBoard → Square → Color → Bool)
    (pos : Position) (right : CastleRight) :
    isLegal att pos right = true ↔
      (att pos.board (kingSquare pos.board pos.player) pos.player = false ∧
       (pos.player = right.color ∧ pos.rights.testBit right.index = true) ∧
       ∀ sq ∈ pathSquares right, att pos.board sq pos.player = false) := by
  unfold isLegal
  by_cases h1 : att pos.board (kingSquare pos.board pos.player) pos.player = true
  · simp [h1]
  · simp only [Bool.not_eq_true] at h1
    simp only [h1, Bool.false_eq_true, if_false, true_and]
    by_cases h2 : pos.player ≠ right.color ∨ pos.rights.testBit right.index = false
    · rcases h2 with h2 | h2 <;> simp [h2]
    · push_neg at h2
      simp only [Bool.not_eq_false] at h2
      simp [h2.1, h2.2, List.all_eq_true]

/-- The union of the individual rights for the distinct letters present
in a string: the membership-based value that the parse loop computes. -/
def rightsMask (s : List Char) : Nat :=
  (if 'K' ∈ s then 1 else 0) |||
    ((if 'Q' ∈ s then 2 else 0) |||
      ((if 'k' ∈ s then 4 else 0) ||| (if 'q' ∈ s then 8 else 0)))

theorem lor_left_comm (a b c : Nat) : a ||| (b ||| c) = b ||| (a ||| c) := by
  rw [← Nat.lor_assoc, Nat.lor_comm a b, Nat.lor_assoc]

theorem lor_ite_absorb (x R : Nat) (P : Prop) [Decidable P] :
    x ||| ((if P then x else 0) ||| R) = x ||| R := by
  by_cases h : P
  · simp only [h, if_true, ← Nat.lor_assoc, Nat.or_self]
  · simp [h]

theorem lor_ite_absorb0 (x : Nat) (P : Prop) [Decidable P] :
    x ||| (if P then x else 0) = x := by
  by_cases h : P <;> simp [h, Nat.or_self]

theorem rightsMask_cons (c : Char) (r : Nat) (hc : charRight c = some r)
    (rest : List Char) : r ||| rightsMask rest = rightsMask (c :: rest) := by
  unfold charRight at hc
  split_ifs at hc with h1 h2 h3 h4 <;>
    first
    | (cases hc
       subst h1
       by_cases mK : 'K' ∈ rest <;> by_cases mQ : 'Q' ∈ rest <;>
         by_cases mk : 'k' ∈ rest <;> by_cases mq : 'q' ∈ rest <;>
         simp [rightsMask, List.mem_cons, mK, mQ, mk, mq])
    | (cases hc
       subst h2
       by_cases mK : 'K' ∈ rest <;> by_cases mQ : 'Q' ∈ rest <;>
         by_cases mk : 'k' ∈ rest <;> by_cases mq : 'q' ∈ rest <;>
         simp [rightsMask, List.mem_cons, mK, mQ, mk, mq])
    | (cases hc
       subst h3
       by_cases mK : 'K' ∈ rest <;> by_cases mQ : 'Q' ∈ rest <;>
         by_cases mk : 'k' ∈ rest <;> by_cases mq : 'q' ∈ rest <;>
         simp [rightsMask, List.mem_cons, mK, mQ, mk, mq])
    | (cases hc
       subst h4
       by_cases mK : 'K' ∈ rest <;> by_cases mQ : 'Q' ∈ rest <;>
         by_cases mk : 'k' ∈ rest <;> by_cases mq : 'q' ∈ rest <;>
         simp [rightsMask, List.mem_cons, mK, mQ, mk, mq])

theorem fromStrAux_eq (s : List Char) : ∀ acc : Nat,
    fromStrAux s acc =
      if s.all (fun c => (charRight c).isSome) then some (acc ||| rightsMask s)
      else none := by
  induction s with
  | nil => intro acc; simp [fromStrAux, rightsMask]
  | cons c rest ih =>
    intro acc
    cases hc : charRight c with
    | none => simp [fromStrAux, hc, List.all_cons]
    | some r =>
      simp only [fromStrAux, hc, List.all_cons, Option.isSome_some,
        Bool.true_and]
      rw [ih (acc ||| r)]
      split
      · rw [Nat.lor_assoc, rightsMask_cons c r hc rest]
      · rfl

/-- C9: CastleRights::from_str succeeds exactly on the single dash and
on the strings (the empty one included) all of whose characters are
castling letters, in any order and with any repetition; a successful
letter parse yields the union of the rights of the distinct letters
present, so the result depends only on which letters occur, and the
empty string yields the empty rights value. -/
theorem castleRightsFromStr_eq (s : List Char) :
    castleRightsFromStr s =
      if s = ['-'] then some 0
      else if s.all (fun c => (charRight c).isSome) then some (rightsMask s)
      else none := by
  unfold castleRightsFromStr
  split
  · rfl
  · rw [fromStrAux_eq s 0]
    split <;> simp

/-- C5: parsing any castling-rights string written in the canonical
letter order (a nonempty subsequence of K Q k q, or the single dash for
the empty rights set) and re-serializing the parsed value through
map_str reproduces the original string exactly. -/
theorem castle_rights_roundtrip (s : List Char)
    (h : s = ['-'] ∨ (s ≠ [] ∧ s.Sublist ['K', 'Q', 'k', 'q'])) :
    (castleRightsFromStr s).map castleRightsStr = some s := by
  rcases h with h | ⟨hne, hsub⟩
  · subst h; decide
  · have hmem : s ∈ (['K', 'Q', 'k', 'q'] : List Char).sublists :=
      List.mem_sublists.2 hsub
    fin_cases hmem <;> first | (exact absurd rfl hne) | decide

/-- Closed witness for C5: the canonical string Kq parses and
re-serializes to itself. -/
theorem castle_rights_roundtrip_witness :
    (castleRightsFromStr ['K', 'q']).map castleRightsStr = some ['K', 'q'] :=
  castle_rights_roundtrip ['K', 'q'] (Or.inr ⟨by decide, by decide⟩)

end Hexe
